import Mathlib

set_option maxHeartbeats 1000000

/-! Shallow embedding of the chart packaging subsystem (`save.go` of the
helm repository): the lexical path helpers it uses from Go's
`path/filepath` on a unix host, the name validator, the archive entry
writer, the recursive archive builder `writeTarContents`, and the two
top-level operations `Save` (archive form) and `SaveDir` (directory
form), together with theorems settling the spec claims about them. -/

deriving instance DecidableEq for Except

namespace ChartSave

/-- Bytes of a file payload, modelled as a list of naturals. -/
abbrev Bytes := List Nat

/-- The path separator character of the modelled (unix) host. -/
def sepChar : Char := '/'

/-- Go `filepath.ToSlash`: replace every host separator by a forward
slash (the identity on a unix host, by substitution). -/
def toSlash (p : List Char) : List Char :=
  p.map (fun ch => if ch = sepChar then '/' else ch)

/-- Go `filepath.Base` on a unix host: empty path gives `.`; trailing
separators are stripped; the last element is returned; a path of only
separators gives `/`. -/
def basename (p : List Char) : List Char :=
  if p = [] then ['.']
  else if (p.reverse.dropWhile (fun ch => ch = '/')).takeWhile (fun ch => ch ≠ '/') = []
    then ['/']
  else ((p.reverse.dropWhile (fun ch => ch = '/')).takeWhile (fun ch => ch ≠ '/')).reverse

/-- Chunks of a path between separators (splitting on every `/`). -/
def segsOf : List Char → List (List Char)
  | [] => [[]]
  | ch :: rest =>
    match segsOf rest with
    | s :: ss => if ch = '/' then [] :: s :: ss else (ch :: s) :: ss
    | [] => [[]]

/-- One step of Go `path.Clean` segment processing; `out` is the stack of
kept segments in reverse order. Empty and `.` segments are dropped; `..`
pops a poppable segment, is dropped at a root, and is kept otherwise. -/
def cleanStep (rooted : Bool) (out : List (List Char)) (seg : List Char) : List (List Char) :=
  if seg = [] ∨ seg = ['.'] then out
  else if seg = ['.', '.'] then
    match out with
    | [] => if rooted then [] else [['.', '.']]
    | s :: rest => if s = ['.', '.'] then seg :: s :: rest else rest
  else seg :: out

/-- Go `filepath.Clean` on a unix host, in segment form: squeeze
separators, drop `.`, resolve `..` lexically, keep rootedness, and return
`.` for an empty relative result. -/
def clean (p : List Char) : List Char :=
  if p = [] then ['.']
  else
    let rooted := p.head? = some '/'
    let body := List.intercalate ['/'] (((segsOf p).foldl (cleanStep rooted) []).reverse)
    if rooted then '/' :: body
    else if body = [] then ['.'] else body

/-- Go `filepath.Join` on two components: empty components are skipped,
the rest are joined with a separator, and the result is cleaned; all
components empty gives the empty path. -/
def joinP (a b : List Char) : List Char :=
  if a = [] ∧ b = [] then []
  else if a = [] then clean b
  else if b = [] then clean a
  else clean (a ++ '/' :: b)

/-- Go `filepath.Dir` on a unix host: everything up to and including the
final separator, cleaned; `.` when there is no separator. -/
def dirname (p : List Char) : List Char :=
  clean ((p.reverse.dropWhile (fun ch => ch ≠ '/')).reverse)

/-- The error taxonomy of the subsystem, from the error values built in
`save.go` (`ErrInvalidChartName`, marshal failures, the invalid-JSON
schema error, destination-conflict and filesystem errors, and the two
wrapping forms `chart validation: %w` and `saving %s: %w`). -/
inductive Err where
  | invalidName (name : List Char)
  | marshalErr
  | malformedSchema
  | destConflict (path : List Char)
  | ioErr
  | chartValidation (e : Err)
  | depSave (fullPath : List Char) (e : Err)
  deriving DecidableEq

/-- The `validateName` function of `save.go`: fail with the invalid-name
error iff `filepath.Base` applied to the name differs from the name. -/
def validateName (name : List Char) : Except Err Unit :=
  if basename name ≠ name then .error (.invalidName name) else .ok ()

/-! Helper lemmas about `basename`. -/

theorem dropWhile_all_neg {p : Char → Bool} :
    ∀ l : List Char, (∀ x ∈ l, ¬ p x) → l.dropWhile p = l
  | [], _ => rfl
  | a :: t, h => List.dropWhile_cons_of_neg (h a (List.mem_cons_self a t))

/-- A name without separator characters is its own base name. -/
theorem basename_of_no_slash (n : List Char) (h0 : n ≠ []) (h1 : '/' ∉ n) :
    basename n = n := by
  unfold basename
  rw [if_neg h0]
  have hd : n.reverse.dropWhile (fun ch => ch = '/') = n.reverse := by
    refine dropWhile_all_neg n.reverse ?_
    intro x hx
    simp only [decide_eq_true_eq]
    intro he
    exact h1 (he ▸ List.mem_reverse.mp hx)
  have ht : n.reverse.takeWhile (fun ch => ch ≠ '/') = n.reverse := by
    rw [List.takeWhile_eq_self_iff]
    intro x hx
    simp only [ne_eq, decide_not, Bool.not_eq_true', decide_eq_false_iff_not]
    intro he
    exact h1 (he ▸ List.mem_reverse.mp hx)
  have hne : n.reverse ≠ [] := by
    intro h
    exact h0 (by simpa using congrArg List.reverse h)
  rw [hd, ht, if_neg hne, List.reverse_reverse]

/-- A name containing a separator and different from `/` is changed by
`basename`. -/
theorem basename_ne_of_slash (n : List Char) (h1 : '/' ∈ n) (h2 : n ≠ ['/']) :
    basename n ≠ n := by
  have h0 : n ≠ [] := by rintro rfl; simp at h1
  unfold basename
  rw [if_neg h0]
  by_cases hre :
      (n.reverse.dropWhile (fun ch => ch = '/')).takeWhile (fun ch => ch ≠ '/') = []
  · rw [if_pos hre]
    exact fun h => h2 h.symm
  · rw [if_neg hre]
    intro hcontra
    have hns :
        '/' ∉ (n.reverse.dropWhile (fun ch => ch = '/')).takeWhile (fun ch => ch ≠ '/') := by
      intro hmem
      have := List.mem_takeWhile_imp hmem
      simp at this
    have hsl :
        '/' ∈ ((n.reverse.dropWhile (fun ch => ch = '/')).takeWhile
          (fun ch => ch ≠ '/')).reverse := by
      rw [hcontra]; exact h1
    exact hns (List.mem_reverse.mp hsl)

/-- Characterization of the names accepted by `validateName`: exactly the
single separator `/` and the nonempty separator-free strings (hence in
particular `.` and `..` are accepted and the empty name is rejected). -/
theorem validateName_ok_iff (n : List Char) :
    validateName n = .ok () ↔ (n = ['/'] ∨ (n ≠ [] ∧ '/' ∉ n)) := by
  unfold validateName
  constructor
  · intro h
    by_cases hb : basename n = n
    · by_cases hsep : '/' ∈ n
      · left
        by_contra hne
        exact basename_ne_of_slash n hsep hne hb
      · right
        constructor
        · intro he
          rw [he] at hb
          simp [basename] at hb
        · exact hsep
    · rw [if_pos (by simpa using hb)] at h
      exact absurd h (by simp)
  · intro h
    have hb : basename n = n := by
      rcases h with h | ⟨h0, h1⟩
      · rw [h]; decide
      · exact basename_of_no_slash n h0 h1
    rw [if_neg (by simpa using hb)]

/-- When the base name differs, `validateName` fails with the
invalid-name error carrying the offending name. -/
theorem validateName_err (n : List Char) (h : basename n ≠ n) :
    validateName n = .error (.invalidName n) := by
  unfold validateName
  rw [if_pos (by simpa using h)]

/-- C1 (amended): the name validator succeeds exactly when `n` is the
single separator `/`, or `n` is nonempty and contains no separator; it
therefore accepts `.` and `..` and rejects the empty name and names with
trailing separators (other than `/` itself); every failure is the
InvalidName error carrying the offending name. -/
theorem claim_C1 (n : List Char) :
    (validateName n = .ok () ↔ (n = ['/'] ∨ (n ≠ [] ∧ '/' ∉ n))) ∧
    (validateName n ≠ .ok () → validateName n = .error (.invalidName n)) := by
  refine ⟨validateName_ok_iff n, ?_⟩
  intro h
  refine validateName_err n ?_
  intro hb
  apply h
  unfold validateName
  rw [if_neg (by simpa using hb)]

/-- Witness for C1 at the concrete name `a`. -/
theorem claim_C1_witness : validateName ['a'] = .ok () :=
  (claim_C1 ['a']).1.mpr (by decide)

/-- Counterexample to C1 as stated: at the name `.` the claimed
equivalence (success iff no separator and not `.` or `..`) fails, because
the validator accepts `.` (Go `filepath.Base` maps `.` to itself). -/
theorem claim_C1_cex :
    ¬ (validateName ['.'] = .ok () ↔
        ('/' ∉ ['.'] ∧ ['.'] ≠ ['.'] ∧ ['.'] ≠ ['.', '.'])) := by
  decide

/-! The data model: files, metadata, lock, charts. The chart object model
is an external collaborator; the fields below are exactly the ones
`save.go` reads (`Name()`, `Metadata`, `Lock`, `Schema`, `Raw`,
`Templates`, `Files`, `Dependencies()`, `Metadata.Version`). -/

/-- A named file of a chart (`chart.File`). -/
structure File where
  name : List Char
  data : Bytes
  deriving DecidableEq

/-- The chart metadata document: the two fields `save.go` reads (name and
version) plus an opaque remainder that only serialization sees. -/
structure Metadata where
  name : List Char
  version : List Char
  rest : Bytes
  deriving DecidableEq

/-- The lock document, opaque to this subsystem. -/
structure Lock where
  body : Bytes
  deriving DecidableEq

/-- A chart: metadata, optional lock, optional schema bytes, raw files,
templates, static files and the ordered dependency charts. -/
inductive Chart where
  | mk (metadata : Metadata) (lock : Option Lock) (schema : Option Bytes)
      (raw templates files : List File) (deps : List Chart)

def Chart.metadata : Chart → Metadata
  | .mk m _ _ _ _ _ _ => m

def Chart.lock : Chart → Option Lock
  | .mk _ l _ _ _ _ _ => l

def Chart.schema : Chart → Option Bytes
  | .mk _ _ s _ _ _ _ => s

def Chart.raw : Chart → List File
  | .mk _ _ _ r _ _ _ => r

def Chart.templates : Chart → List File
  | .mk _ _ _ _ t _ _ => t

def Chart.files : Chart → List File
  | .mk _ _ _ _ _ f _ => f

def Chart.deps : Chart → List Chart
  | .mk _ _ _ _ _ _ d => d

/-- Go `c.Name()`, which returns `c.Metadata.Name`. -/
def Chart.Name (c : Chart) : List Char := c.metadata.name

/-- Go `c.Metadata.Version`. -/
def Chart.version (c : Chart) : List Char := c.metadata.version

/-- A tar header as filled in by `writeToTar`: slash-normalized name,
permission mode, payload size, and modification time (an abstract clock
value standing for `time.Now()`). -/
structure Header where
  name : List Char
  mode : Nat
  size : Nat
  modTime : Nat
  deriving DecidableEq

/-- One archive entry: its header and its payload bytes. -/
structure Entry where
  header : Header
  body : Bytes
  deriving DecidableEq

/-- External collaborators of `save.go`, modelled as explicit functions:
structured-document serialization (`yaml.Marshal` on metadata and lock,
`None` meaning a marshal error), JSON well-formedness (`json.Valid`), the
delegated chart validator (`c.Validate()`, `some e` meaning failure), the
fully-qualified chart path (`c.ChartFullPath()`), and the fallible
header/payload writes of the underlying tar stream. -/
structure Ctx where
  marshalMeta : Metadata → Option Bytes
  marshalLock : Lock → Option Bytes
  jsonValid : Bytes → Bool
  validate : Chart → Option Err
  fullPath : Chart → List Char
  hdrW : Header → Except Err Unit
  bodyW : Bytes → Except Err Unit

/-! Filename constants of the chart package. -/

def ChartfileName : List Char := "Chart.yaml".toList

def ValuesfileName : List Char := "values.yaml".toList

def SchemafileName : List Char := "values.schema.json".toList

def ChartsDir : List Char := "charts".toList

/-- The literal `Chart.lock` path component used in `writeTarContents`. -/
def LockfileName : List Char := "Chart.lock".toList

/-- The header built by `writeToTar` for a logical path and payload:
slash-normalized name, fixed mode `0644`, size equal to the payload
length, and the current clock value as modification time. -/
def mkHeader (now : Nat) (name : List Char) (body : Bytes) : Header :=
  { name := toSlash name, mode := 0o644, size := body.length, modTime := now }

/-- The entry written by a successful `writeToTar`. -/
def mkEntry (now : Nat) (name : List Char) (body : Bytes) : Entry :=
  { header := mkHeader now name body, body := body }

/-- The `writeToTar` function of `save.go`: build the header, write it,
then write the payload; a failure of either write fails the entry. -/
def writeToTar (ctx : Ctx) (now : Nat) (name : List Char) (body : Bytes) :
    Except Err Entry :=
  match ctx.hdrW (mkHeader now name body) with
  | .error e => .error e
  | .ok _ =>
    match ctx.bodyW body with
    | .error e => .error e
    | .ok _ => .ok (mkEntry now name body)

/-- The `Chart.lock` block of `writeTarContents`: marshal and write the
lock document only when it is present. -/
def tarLock (ctx : Ctx) (now : Nat) (base : List Char) :
    Option Lock → Except Err (List Entry)
  | none => .ok []
  | some lk =>
    match ctx.marshalLock lk with
    | none => .error .marshalErr
    | some ld =>
      match writeToTar ctx now (joinP base LockfileName) ld with
      | .error e => .error e
      | .ok e => .ok [e]

/-- The values block of `writeTarContents`: walk the raw files and write
an entry at the values path for every raw file named `values.yaml`. -/
def tarValues (ctx : Ctx) (now : Nat) (base : List Char) :
    List File → Except Err (List Entry)
  | [] => .ok []
  | f :: rest =>
    if f.name = ValuesfileName then
      match writeToTar ctx now (joinP base ValuesfileName) f.data with
      | .error e => .error e
      | .ok e =>
        match tarValues ctx now base rest with
        | .error e2 => .error e2
        | .ok es => .ok (e :: es)
    else tarValues ctx now base rest

/-- The schema block of `writeTarContents`: when a schema is present,
reject it unless `json.Valid` holds, then write it. -/
def tarSchema (ctx : Ctx) (now : Nat) (base : List Char) :
    Option Bytes → Except Err (List Entry)
  | none => .ok []
  | some s =>
    if ctx.jsonValid s then
      match writeToTar ctx now (joinP base SchemafileName) s with
      | .error e => .error e
      | .ok e => .ok [e]
    else .error .malformedSchema

/-- The template/static-file blocks of `writeTarContents`: write every
file of the list at its path under `base`, in collection order. -/
def tarFiles (ctx : Ctx) (now : Nat) (base : List Char) :
    List File → Except Err (List Entry)
  | [] => .ok []
  | f :: rest =>
    match writeToTar ctx now (joinP base f.name) f.data with
    | .error e => .error e
    | .ok e =>
      match tarFiles ctx now base rest with
      | .error e2 => .error e2
      | .ok es => .ok (e :: es)

mutual

/-- The `writeTarContents` function of `save.go`: validate the name, set
`base` to the joined prefix and name, then write (in order) the metadata
document, the lock document, the values file(s), the schema, the
templates, the static files, and recursively every dependency under
`base/charts` into the same entry stream. The returned list is the
sequence of entries appended to the stream on success. -/
def writeTarContents (ctx : Ctx) (now : Nat) (c : Chart) (pre : List Char) :
    Except Err (List Entry) :=
  match c with
  | .mk md lk sc raw tmpl fls deps =>
    match validateName md.name with
    | .error e => .error e
    | .ok _ =>
      match ctx.marshalMeta md with
      | none => .error .marshalErr
      | some cdata =>
        match writeToTar ctx now (joinP (joinP pre md.name) ChartfileName) cdata with
        | .error e => .error e
        | .ok e0 =>
          match tarLock ctx now (joinP pre md.name) lk with
          | .error e => .error e
          | .ok eL =>
            match tarValues ctx now (joinP pre md.name) raw with
            | .error e => .error e
            | .ok eV =>
              match tarSchema ctx now (joinP pre md.name) sc with
              | .error e => .error e
              | .ok eS =>
                match tarFiles ctx now (joinP pre md.name) tmpl with
                | .error e => .error e
                | .ok eT =>
                  match tarFiles ctx now (joinP pre md.name) fls with
                  | .error e => .error e
                  | .ok eF =>
                    match writeTarList ctx now deps
                        (joinP (joinP pre md.name) ChartsDir) with
                    | .error e => .error e
                    | .ok eD => .ok (e0 :: (eL ++ eV ++ eS ++ eT ++ eF ++ eD))

/-- The dependency loop of `writeTarContents`: recurse into each
dependency in list order, concatenating the produced entries. -/
def writeTarList (ctx : Ctx) (now : Nat) (cs : List Chart) (pre : List Char) :
    Except Err (List Entry) :=
  match cs with
  | [] => .ok []
  | d :: ds =>
    match writeTarContents ctx now d pre with
    | .error e => .error e
    | .ok e1 =>
      match writeTarList ctx now ds pre with
      | .error e => .error e
      | .ok es => .ok (e1 ++ es)

end

/-- Spec-side lock block: the lock document entry when present. -/
def specLockPart (ctx : Ctx) (now : Nat) (base : List Char) :
    Option Lock → List Entry
  | none => []
  | some l =>
    [mkEntry now (joinP base LockfileName) ((ctx.marshalLock l).getD [])]

/-- Spec-side schema block: the schema entry when present. -/
def specSchemaPart (now : Nat) (base : List Char) :
    Option Bytes → List Entry
  | none => []
  | some s => [mkEntry now (joinP base SchemafileName) s]

mutual

/-- Spec-side definition of the archive stream (for refinement against
`writeTarContents`), following the words of the spec: with
`base = prefix/name`, the stream is the metadata document, then the lock
document if present, then the values file if present among raw files,
then the schema if present, then every template file in order, then
every static file in order, then for every dependency in order its own
stream with prefix `base/charts`, flattened into the same sequence. -/
def specArchive (ctx : Ctx) (now : Nat) (c : Chart) (pre : List Char) :
    List Entry :=
  match c with
  | .mk md lk sc raw tmpl fls deps =>
    mkEntry now (joinP (joinP pre md.name) ChartfileName)
        ((ctx.marshalMeta md).getD [])
      :: (specLockPart ctx now (joinP pre md.name) lk
        ++ (raw.filter (fun f => f.name = ValuesfileName)).map
            (fun f => mkEntry now (joinP (joinP pre md.name) ValuesfileName) f.data)
        ++ specSchemaPart now (joinP pre md.name) sc
        ++ tmpl.map (fun f => mkEntry now (joinP (joinP pre md.name) f.name) f.data)
        ++ fls.map (fun f => mkEntry now (joinP (joinP pre md.name) f.name) f.data)
        ++ specArchiveList ctx now deps (joinP (joinP pre md.name) ChartsDir))

/-- Spec-side stream of a dependency list, in list order. -/
def specArchiveList (ctx : Ctx) (now : Nat) (cs : List Chart) (pre : List Char) :
    List Entry :=
  match cs with
  | [] => []
  | d :: ds => specArchive ctx now d pre ++ specArchiveList ctx now ds pre

end

/-! Success-shape lemmas for the blocks of `writeTarContents`. -/

theorem writeToTar_ok (ctx : Ctx) (now : Nat) (name : List Char) (body : Bytes)
    (e : Entry) (h : writeToTar ctx now name body = .ok e) :
    e = mkEntry now name body := by
  unfold writeToTar at h
  split at h
  · simp at h
  · split at h
    · simp at h
    · exact (Except.ok.inj h).symm

theorem tarLock_ok (ctx : Ctx) (now : Nat) (base : List Char) (l : Option Lock)
    (es : List Entry) (h : tarLock ctx now base l = .ok es) :
    es = specLockPart ctx now base l := by
  cases l with
  | none =>
    simp only [tarLock] at h
    simp [specLockPart, ← Except.ok.inj h]
  | some lk =>
    simp only [tarLock] at h
    split at h
    · simp at h
    · rename_i ld hld
      split at h
      · simp at h
      · rename_i e he
        have hw := writeToTar_ok ctx now (joinP base LockfileName) ld e he
        simp [specLockPart, hld, ← Except.ok.inj h, hw]

theorem tarValues_ok (ctx : Ctx) (now : Nat) (base : List Char) :
    ∀ (l : List File) (es : List Entry), tarValues ctx now base l = .ok es →
      es = (l.filter (fun f => f.name = ValuesfileName)).map
        (fun f => mkEntry now (joinP base ValuesfileName) f.data) := by
  intro l
  induction l with
  | nil =>
    intro es h
    simp only [tarValues] at h
    simp [← Except.ok.inj h]
  | cons f rest ih =>
    intro es h
    simp only [tarValues] at h
    by_cases hf : f.name = ValuesfileName
    · rw [if_pos hf] at h
      split at h
      · simp at h
      · rename_i e he
        split at h
        · simp at h
        · rename_i es2 hes2
          have h1 := writeToTar_ok ctx now (joinP base ValuesfileName) f.data e he
          have h2 := ih es2 hes2
          rw [← Except.ok.inj h, h1, h2]
          simp [List.filter_cons, hf]
    · rw [if_neg hf] at h
      have h2 := ih es h
      rw [h2]
      simp [List.filter_cons, hf]

theorem tarSchema_ok (ctx : Ctx) (now : Nat) (base : List Char) (sc : Option Bytes)
    (es : List Entry) (h : tarSchema ctx now base sc = .ok es) :
    es = specSchemaPart now base sc := by
  cases sc with
  | none =>
    simp only [tarSchema] at h
    simp [specSchemaPart, ← Except.ok.inj h]
  | some s =>
    simp only [tarSchema] at h
    split at h
    · split at h
      · simp at h
      · rename_i e he
        have hw := writeToTar_ok ctx now (joinP base SchemafileName) s e he
        simp [specSchemaPart, ← Except.ok.inj h, hw]
    · simp at h

theorem tarFiles_ok (ctx : Ctx) (now : Nat) (base : List Char) :
    ∀ (l : List File) (es : List Entry), tarFiles ctx now base l = .ok es →
      es = l.map (fun f => mkEntry now (joinP base f.name) f.data) := by
  intro l
  induction l with
  | nil =>
    intro es h
    simp only [tarFiles] at h
    simp [← Except.ok.inj h]
  | cons f rest ih =>
    intro es h
    simp only [tarFiles] at h
    split at h
    · simp at h
    · rename_i e he
      split at h
      · simp at h
      · rename_i es2 hes2
        have h1 := writeToTar_ok ctx now (joinP base f.name) f.data e he
        have h2 := ih es2 hes2
        rw [← Except.ok.inj h, h1, h2]
        simp

/-- Joint induction (bounded by `sizeOf`) showing that a successful
`writeTarContents` run produces exactly the spec-side entry stream. -/
theorem wtc_spec_aux (ctx : Ctx) (now : Nat) :
    ∀ n : Nat,
      (∀ c : Chart, sizeOf c ≤ n → ∀ pre es,
        writeTarContents ctx now c pre = .ok es → es = specArchive ctx now c pre) ∧
      (∀ cs : List Chart, sizeOf cs ≤ n → ∀ pre es,
        writeTarList ctx now cs pre = .ok es → es = specArchiveList ctx now cs pre) := by
  intro n
  induction n with
  | zero =>
    constructor
    · intro c hc
      cases c with
      | mk md lk sc raw tmpl fls deps => simp at hc
    · intro cs hcs
      cases cs with
      | nil => simp at hcs
      | cons d ds => simp at hcs
  | succ n ih =>
    constructor
    · intro c hc pre es h
      cases c with
      | mk md lk sc raw tmpl fls deps =>
        have hdeps : sizeOf deps ≤ n := by
          simp at hc
          omega
        simp only [writeTarContents] at h
        split at h
        · simp at h
        · split at h
          · simp at h
          · rename_i cdata hcd
            split at h
            · simp at h
            · rename_i e0 he0
              split at h
              · simp at h
              · rename_i eL heL
                split at h
                · simp at h
                · rename_i eV heV
                  split at h
                  · simp at h
                  · rename_i eS heS
                    split at h
                    · simp at h
                    · rename_i eT heT
                      split at h
                      · simp at h
                      · rename_i eF heF
                        split at h
                        · simp at h
                        · rename_i eD heD
                          have h0 := writeToTar_ok ctx now
                            (joinP (joinP pre md.name) ChartfileName) cdata e0 he0
                          have hL := tarLock_ok ctx now (joinP pre md.name) lk eL heL
                          have hV := tarValues_ok ctx now (joinP pre md.name) raw eV heV
                          have hS := tarSchema_ok ctx now (joinP pre md.name) sc eS heS
                          have hT := tarFiles_ok ctx now (joinP pre md.name) tmpl eT heT
                          have hF := tarFiles_ok ctx now (joinP pre md.name) fls eF heF
                          have hD := (ih.2) deps hdeps
                            (joinP (joinP pre md.name) ChartsDir) eD heD
                          rw [← Except.ok.inj h]
                          simp only [specArchive, h0, hL, hV, hS, hT, hF, hD, hcd,
                            Option.getD_some]
    · intro cs hcs pre es h
      cases cs with
      | nil =>
        simp only [writeTarList] at h
        simp [specArchiveList, ← Except.ok.inj h]
      | cons d ds =>
        have hd : sizeOf d ≤ n := by simp at hcs; omega
        have hds : sizeOf ds ≤ n := by simp at hcs; omega
        simp only [writeTarList] at h
        split at h
        · simp at h
        · rename_i e1 he1
          split at h
          · simp at h
          · rename_i es2 hes2
            have h1 := (ih.1) d hd pre e1 he1
            have h2 := (ih.2) ds hds pre es2 hes2
            rw [← Except.ok.inj h, h1, h2]
            simp [specArchiveList]

/-- When the chart name is not its own base name, the archive builder
fails immediately with the InvalidName error. -/
theorem wtc_invalidName (ctx : Ctx) (now : Nat) (c : Chart) (pre : List Char)
    (hb : basename c.Name ≠ c.Name) :
    writeTarContents ctx now c pre = .error (.invalidName c.Name) := by
  cases c with
  | mk md lk sc raw tmpl fls deps =>
    simp only [writeTarContents]
    rw [validateName_err md.name (by simpa [Chart.Name, Chart.metadata] using hb)]
    simp [Chart.Name, Chart.metadata]

/-- C2: the archive builder first validates the chart name (failing with
InvalidName when the base name differs); on success the entries appended
are exactly, in order and with `base = prefix/name` formed by path
joining: the metadata document, the lock document if present, the values
entries of the raw files named `values.yaml`, the schema if present,
every template in collection order, every static file in collection
order, and then every dependency in list order flattened recursively into
the same stream with prefix `base/charts` (no nested compression
layer, the dependency entries being ordinary elements of the same
list). -/
theorem claim_C2 (ctx : Ctx) (now : Nat) (c : Chart) (pre : List Char) :
    (∀ es, writeTarContents ctx now c pre = .ok es →
      es = specArchive ctx now c pre) ∧
    (basename c.Name ≠ c.Name →
      writeTarContents ctx now c pre = .error (.invalidName c.Name)) := by
  constructor
  · intro es h
    exact ((wtc_spec_aux ctx now (sizeOf c)).1) c (Nat.le_refl _) pre es h
  · exact wtc_invalidName ctx now c pre

/-- Concrete instantiation of the external collaborators: marshal returns
the metadata remainder / lock body, every JSON is valid, chart validation
passes, and the tar stream never fails. -/
def ctx0 : Ctx where
  marshalMeta := fun md => some md.rest
  marshalLock := fun lk => some lk.body
  jsonValid := fun _ => true
  validate := fun _ => none
  fullPath := fun c => c.Name
  hdrW := fun _ => .ok ()
  bodyW := fun _ => .ok ()

/-- A chart whose name encodes a path. -/
def chartEvil : Chart :=
  .mk ⟨"../evil".toList, "1.0.0".toList, []⟩ none none [] [] [] []

/-- Witness for C2: on the path-encoding name the builder fails with
InvalidName before writing anything. -/
theorem claim_C2_witness :
    writeTarContents ctx0 0 chartEvil [] = .error (.invalidName "../evil".toList) :=
  (claim_C2 ctx0 0 chartEvil []).2 (by decide)

/-! The filesystem model: an association list from paths to nodes (first
binding wins), plus the event log of the mutations a call performs. -/

/-- Content of a regular file: raw bytes (written by the directory
materializer), a compressed archive holding a list of entries (written by
a successful `Save`), or empty (just created/truncated by `os.Create`). -/
inductive FileContent where
  | raw (b : Bytes)
  | tgz (es : List Entry)
  | empty
  deriving DecidableEq

/-- A filesystem node: a directory or a regular file. -/
inductive Node where
  | dir
  | file (content : FileContent)
  deriving DecidableEq

/-- A filesystem: paths bound to nodes, earlier bindings shadowing later
ones. -/
abbrev FS := List (List Char × Node)

/-- Go `os.Stat`, as a total lookup: `none` plays the not-exist error. -/
def FS.stat (fs : FS) (p : List Char) : Option Node :=
  match fs with
  | [] => none
  | (q, nd) :: rest => if q = p then some nd else FS.stat rest p

/-- Go `os.Remove` of a file: drop every binding of the path. -/
def FS.removeF (fs : FS) (p : List Char) : FS :=
  fs.filter (fun e => !decide (e.1 = p))

/-- A filesystem mutation performed by a call, in order of occurrence. -/
inductive Ev where
  | mkdir (p : List Char)
  | create (p : List Char)
  | write (p : List Char)
  | remove (p : List Char)
  deriving DecidableEq

/-- The canonical archive file name `<name>-<version>.tgz` of a chart. -/
def archiveFileName (c : Chart) : List Char :=
  c.Name ++ '-' :: c.version ++ ".tgz".toList

/-- The archive path `Save` computes for a chart and output directory. -/
def archivePath (c : Chart) (outDir : List Char) : List Char :=
  joinP outDir (archiveFileName c)

/-- The tail of `Save` after the destination-directory checks: create
(truncate) the output file, run the archive builder, and on its failure
delete the file again and still return the computed filename alongside
the error; on success retain the file with the archive as its content. -/
def saveCreate (ctx : Ctx) (now : Nat) (c : Chart) (fname : List Char)
    (fs : FS) (evs : List Ev) : (List Char × Option Err) × FS × List Ev :=
  match FS.stat fs fname with
  | some Node.dir => (([], some .ioErr), fs, evs)
  | _ =>
    match writeTarContents ctx now c [] with
    | .error e =>
      ((fname, some e),
        FS.removeF ((fname, Node.file .empty) :: fs) fname,
        evs ++ [Ev.create fname, Ev.remove fname])
    | .ok es =>
      ((fname, none),
        (fname, Node.file (.tgz es)) :: (fname, Node.file .empty) :: fs,
        evs ++ [Ev.create fname])

/-- The `Save` function of `save.go`: run the delegated chart validation,
compute `<outDir>/<name>-<version>.tgz`, create the output directory if
absent (failing when the path is occupied by a non-directory), create the
file, wrap it in gzip and tar layers, and drive `writeTarContents`; on
builder failure the deferred rollback removes the file and the call
returns the filename together with the error. -/
def save (ctx : Ctx) (now : Nat) (c : Chart) (outDir : List Char) (fs : FS) :
    (List Char × Option Err) × FS × List Ev :=
  match ctx.validate c with
  | some e => (([], some (.chartValidation e)), fs, [])
  | none =>
    match FS.stat fs (dirname (archivePath c outDir)) with
    | none =>
      saveCreate ctx now c (archivePath c outDir)
        ((dirname (archivePath c outDir), Node.dir) :: fs)
        [Ev.mkdir (dirname (archivePath c outDir))]
    | some Node.dir => saveCreate ctx now c (archivePath c outDir) fs []
    | some (Node.file _) =>
      (([], some (.destConflict (dirname (archivePath c outDir)))), fs, [])

/-- Modelled from the spec: the `writeFile` helper used by the directory
materializer (not part of the shown source) writes a file at its path
with permission `0644`, creating parent directories as needed; it fails
when the parent path is occupied by a regular file or the target is a
directory. -/
def writeFileF (fs : FS) (p : List Char) (b : Bytes) :
    Option Err × FS × List Ev :=
  match FS.stat fs (dirname p) with
  | some (Node.file _) => (some .ioErr, fs, [])
  | some Node.dir =>
    match FS.stat fs p with
    | some Node.dir => (some .ioErr, fs, [])
    | _ => (none, (p, Node.file (.raw b)) :: fs, [Ev.write p])
  | none =>
    match FS.stat ((dirname p, Node.dir) :: fs) p with
    | some Node.dir =>
      (some .ioErr, (dirname p, Node.dir) :: fs, [Ev.mkdir (dirname p)])
    | _ =>
      (none, (p, Node.file (.raw b)) :: (dirname p, Node.dir) :: fs,
        [Ev.mkdir (dirname p), Ev.write p])

/-- Write a list of path/payload pairs in order, stopping at the first
failure (the template/static-file loops of `SaveDir`). -/
def writeAll (fs : FS) : List (List Char × Bytes) → Option Err × FS × List Ev
  | [] => (none, fs, [])
  | (p, b) :: rest =>
    match writeFileF fs p b with
    | (some e, fs1, ev) => (some e, fs1, ev)
    | (none, fs1, ev) =>
      match writeAll fs1 rest with
      | (r, fs2, ev2) => (r, fs2, ev ++ ev2)

/-- The dependency loop of `SaveDir`: write each dependency as an archive
via `Save` rooted at the `charts` directory, wrapping a failure with the
dependency's fully-qualified name. -/
def saveDeps (ctx : Ctx) (now : Nat) (base : List Char) (fs : FS) :
    List Chart → Option Err × FS × List Ev
  | [] => (none, fs, [])
  | d :: ds =>
    match save ctx now d base fs with
    | ((_, some e), fs1, ev) => (some (.depSave (ctx.fullPath d) e), fs1, ev)
    | ((_, none), fs1, ev) =>
      match saveDeps ctx now base fs1 ds with
      | (r, fs2, ev2) => (r, fs2, ev ++ ev2)

/-- Go `os.MkdirAll`: succeed silently on an existing directory, fail on
an existing regular file, create the directory otherwise. -/
def mkdirAllF (fs : FS) (p : List Char) : Option Err × FS × List Ev :=
  match FS.stat fs p with
  | some Node.dir => (none, fs, [])
  | some (Node.file _) => (some .ioErr, fs, [])
  | none => (none, (p, Node.dir) :: fs, [Ev.mkdir p])

/-- The `SaveDir` function of `save.go`: validate the chart name, refuse
a destination occupied by a non-directory, create `<dest>/<name>`, write
the metadata document (`SaveChartfile`, modelled from the spec as marshal
plus file write), the values file(s) among the raw files, the schema
bytes verbatim when present (with no well-formedness check), every
template then every static file, and finally each dependency as an
independent archive under `<dest>/<name>/charts` via `Save`. -/
def saveDir (ctx : Ctx) (now : Nat) (c : Chart) (dest : List Char) (fs : FS) :
    Option Err × FS × List Ev :=
  match validateName c.Name with
  | .error e => (some e, fs, [])
  | .ok _ =>
    match FS.stat fs (joinP dest c.Name) with
    | some (Node.file _) => (some (.destConflict (joinP dest c.Name)), fs, [])
    | _ =>
      match mkdirAllF fs (joinP dest c.Name) with
      | (some e, fs1, ev1) => (some e, fs1, ev1)
      | (none, fs1, ev1) =>
        match ctx.marshalMeta c.metadata with
        | none => (some .marshalErr, fs1, ev1)
        | some mdata =>
          match writeFileF fs1 (joinP (joinP dest c.Name) ChartfileName) mdata with
          | (some e, fs2, ev2) => (some e, fs2, ev1 ++ ev2)
          | (none, fs2, ev2) =>
            match writeAll fs2
                ((c.raw.filter (fun f => f.name = ValuesfileName)).map
                  (fun f => (joinP (joinP dest c.Name) ValuesfileName, f.data))) with
            | (some e, fs3, ev3) => (some e, fs3, ev1 ++ ev2 ++ ev3)
            | (none, fs3, ev3) =>
              match (match c.schema with
                | none => (none, fs3, [])
                | some s =>
                  writeFileF fs3 (joinP (joinP dest c.Name) SchemafileName) s) with
              | (some e, fs4, ev4) => (some e, fs4, ev1 ++ ev2 ++ ev3 ++ ev4)
              | (none, fs4, ev4) =>
                match writeAll fs4
                    ((c.templates ++ c.files).map
                      (fun f => (joinP (joinP dest c.Name) f.name, f.data))) with
                | (some e, fs5, ev5) => (some e, fs5, ev1 ++ ev2 ++ ev3 ++ ev4 ++ ev5)
                | (none, fs5, ev5) =>
                  match saveDeps ctx now (joinP (joinP dest c.Name) ChartsDir)
                      fs5 c.deps with
                  | (r, fs6, ev6) => (r, fs6, ev1 ++ ev2 ++ ev3 ++ ev4 ++ ev5 ++ ev6)

/-- Removing a path removes every binding of it. -/
theorem stat_removeF (p : List Char) :
    ∀ fs : FS, FS.stat (FS.removeF fs p) p = none := by
  intro fs
  induction fs with
  | nil => rfl
  | cons hd t ih =>
    by_cases hq : hd.1 = p
    · simpa [FS.removeF, List.filter_cons, hq] using ih
    · simpa [FS.removeF, List.filter_cons, hq, FS.stat] using ih

/-- C3: when `Save` fails, the archive file does not survive: if the call
created (truncated) the output file, the final filesystem has no node at
the archive path at all; and in every failing case the call leaves no
file at the archive path that was not already there with the same
content, so repeated failing calls never accumulate archive files. -/
theorem claim_C3 (ctx : Ctx) (now : Nat) (c : Chart) (outDir : List Char)
    (fs : FS) (e : Err) (h : (save ctx now c outDir fs).1.2 = some e) :
    (Ev.create (archivePath c outDir) ∈ (save ctx now c outDir fs).2.2 →
      FS.stat (save ctx now c outDir fs).2.1 (archivePath c outDir) = none) ∧
    (∀ ct, FS.stat (save ctx now c outDir fs).2.1 (archivePath c outDir) =
        some (Node.file ct) →
      FS.stat fs (archivePath c outDir) = some (Node.file ct)) := by
  unfold save at *
  split at h
  · constructor
    · intro hmem
      simp at hmem
    · intro ct hct
      exact hct
  · rename_i hval
    split at h
    · rename_i hdir
      unfold saveCreate at *
      split at h
      · rename_i hstat
        constructor
        · intro hmem
          simp at hmem
        · intro ct hct
          rw [hct] at hstat
          simp at hstat
      · split at h
        · rename_i he
          refine ⟨fun _ => stat_removeF _ _, fun ct hct => ?_⟩
          rw [stat_removeF] at hct
          exact absurd hct (by simp)
        · simp at h
    · rename_i hdir
      unfold saveCreate at *
      split at h
      · rename_i hstat
        constructor
        · intro hmem
          simp at hmem
        · intro ct hct
          rw [hct] at hstat
          simp at hstat
      · split at h
        · rename_i he
          refine ⟨fun _ => stat_removeF _ _, fun ct hct => ?_⟩
          rw [stat_removeF] at hct
          exact absurd hct (by simp)
        · simp at h
    · constructor
      · intro hmem
        simp at hmem
      · intro ct hct
        exact hct

/-- The collaborators with an always-failing JSON check, used to exhibit
concrete failing archive builds. -/
def ctxBad : Ctx := { ctx0 with jsonValid := fun _ => false }

/-- A small concrete chart named `a`, version `1`, with a values file, a
schema and one template. -/
def chartW : Chart :=
  .mk ⟨['a'], ['1'], [7]⟩ none (some [1])
    [⟨"values.yaml".toList, [2]⟩] [⟨"templates/t1".toList, [3]⟩] [] []

/-- Witness for C3: the failing concrete `Save` leaves no node at the
archive path. -/
theorem claim_C3_witness :
    FS.stat (save ctxBad 0 chartW "o".toList []).2.1
      (archivePath chartW "o".toList) = none :=
  (claim_C3 ctxBad 0 chartW "o".toList [] .malformedSchema (by decide)).1
    (by decide)

/-- C4 (amended): `Save` returns the computed archive path
`<outDir>/<name>-<version>.tgz` on success; on a failure before the
output file is created it returns the empty path with the error; on a
failure during writing (after the file was created) it returns the
archive path, not the empty path, together with the error. -/
theorem claim_C4 (ctx : Ctx) (now : Nat) (c : Chart) (outDir : List Char)
    (fs : FS) :
    ((save ctx now c outDir fs).1.2 = none →
      (save ctx now c outDir fs).1.1 = archivePath c outDir) ∧
    (∀ e, (save ctx now c outDir fs).1.2 = some e →
      Ev.create (archivePath c outDir) ∈ (save ctx now c outDir fs).2.2 →
      (save ctx now c outDir fs).1.1 = archivePath c outDir) ∧
    (∀ e, (save ctx now c outDir fs).1.2 = some e →
      Ev.create (archivePath c outDir) ∉ (save ctx now c outDir fs).2.2 →
      (save ctx now c outDir fs).1.1 = []) := by
  unfold save saveCreate
  split
  · refine ⟨fun hn => absurd hn (by simp), fun e he hmem => ?_, fun e he hmem => rfl⟩
    simp at hmem
  · split
    · split
      · refine ⟨fun hn => absurd hn (by simp), fun e he hmem => ?_, fun e he hmem => rfl⟩
        simp at hmem
      · split
        · refine ⟨fun hn => absurd hn (by simp), fun e he hmem => rfl, fun e he hmem => ?_⟩
          simp at hmem
        · refine ⟨fun hn => rfl, fun e he hmem => ?_, fun e he hmem => ?_⟩ <;> simp at he
    · split
      · refine ⟨fun hn => absurd hn (by simp), fun e he hmem => ?_, fun e he hmem => rfl⟩
        simp at hmem
      · split
        · refine ⟨fun hn => absurd hn (by simp), fun e he hmem => rfl, fun e he hmem => ?_⟩
          simp at hmem
        · refine ⟨fun hn => rfl, fun e he hmem => ?_, fun e he hmem => ?_⟩ <;> simp at he
    · refine ⟨fun hn => absurd hn (by simp), fun e he hmem => ?_, fun e he hmem => rfl⟩
      simp at hmem

/-- Witness for C4: a successful concrete `Save` returns the archive
path. -/
theorem claim_C4_witness :
    (save ctx0 0 chartW "o".toList []).1.1 = archivePath chartW "o".toList :=
  (claim_C4 ctx0 0 chartW "o".toList []).1 (by decide)

/-- Counterexample to C4 as stated: a `Save` call that fails during
writing (malformed schema) returns the non-empty archive path together
with the error, not the empty path. -/
theorem claim_C4_cex :
    (save ctxBad 0 chartW "o".toList []).1.2 = some .malformedSchema ∧
    (save ctxBad 0 chartW "o".toList []).1.1 ≠ [] := by
  decide

/-- When chart validation passes, the destination checks do not fire, and
the archive builder fails, `Save` surfaces exactly the builder's error
and the final filesystem has no node at the archive path. -/
theorem save_err_of_wtc (ctx : Ctx) (now : Nat) (c : Chart) (outDir : List Char)
    (fs : FS) (e : Err) (hval : ctx.validate c = none)
    (hdf : ∀ ct, FS.stat fs (dirname (archivePath c outDir)) ≠ some (Node.file ct))
    (hnd : FS.stat fs (archivePath c outDir) ≠ some Node.dir)
    (hdd : dirname (archivePath c outDir) ≠ archivePath c outDir)
    (hwtc : writeTarContents ctx now c [] = .error e) :
    (save ctx now c outDir fs).1.2 = some e ∧
    Ev.create (archivePath c outDir) ∈ (save ctx now c outDir fs).2.2 ∧
    FS.stat (save ctx now c outDir fs).2.1 (archivePath c outDir) = none := by
  unfold save saveCreate
  rw [hval]
  dsimp only
  split
  · rename_i hdir
    rw [show FS.stat ((dirname (archivePath c outDir), Node.dir) :: fs)
          (archivePath c outDir) = FS.stat fs (archivePath c outDir) from by
        simp [FS.stat, hdd]]
    split
    · rename_i hs
      exact absurd hs hnd
    · rw [hwtc]
      dsimp only
      exact ⟨rfl, by simp, stat_removeF _ _⟩
  · split
    · rename_i hs
      exact absurd hs hnd
    · rw [hwtc]
      dsimp only
      exact ⟨rfl, by simp, stat_removeF _ _⟩
  · rename_i hdir
    exact absurd hdir (hdf _)

/-- C5 (amended): on a chart whose name encodes a path, `SaveDir` fails
with InvalidName performing no filesystem mutation at all; `Save` (when
the delegated chart validation passes and the destination checks do not
fail first) also fails with InvalidName and the archive file does not
survive, but only after creating and deleting the output file — and, as
the counterexample shows, possibly after creating a directory that
persists. -/
theorem claim_C5 (ctx : Ctx) (now : Nat) (c : Chart) (dest outDir : List Char)
    (fs : FS) (hb : basename c.Name ≠ c.Name) :
    saveDir ctx now c dest fs = (some (.invalidName c.Name), fs, []) ∧
    (ctx.validate c = none →
      (∀ ct, FS.stat fs (dirname (archivePath c outDir)) ≠ some (Node.file ct)) →
      FS.stat fs (archivePath c outDir) ≠ some Node.dir →
      dirname (archivePath c outDir) ≠ archivePath c outDir →
      (save ctx now c outDir fs).1.2 = some (.invalidName c.Name) ∧
      Ev.create (archivePath c outDir) ∈ (save ctx now c outDir fs).2.2 ∧
      FS.stat (save ctx now c outDir fs).2.1 (archivePath c outDir) = none) := by
  constructor
  · unfold saveDir
    rw [validateName_err c.Name hb]
  · intro hval hdf hnd hdd
    exact save_err_of_wtc ctx now c outDir fs (.invalidName c.Name) hval hdf hnd hdd
      (wtc_invalidName ctx now c [] hb)

/-- Witness for C5 (amended): at the concrete chart named `../evil`,
`SaveDir` mutates nothing and `Save` removes the file it created. -/
theorem claim_C5_witness :
    saveDir ctx0 0 chartEvil "d".toList [] =
      (some (.invalidName "../evil".toList), [], []) ∧
    FS.stat (save ctx0 0 chartEvil "o".toList []).2.1
      (archivePath chartEvil "o".toList) = none := by
  have h := claim_C5 ctx0 0 chartEvil "d".toList "o".toList [] (by decide)
  refine ⟨h.1, ?_⟩
  exact (h.2 rfl (fun ct hct => Option.noConfusion hct) (by decide) (by decide)).2.2

/-- Counterexample to C5 as stated: the failing `Save` call on the chart
named `../evil` does mutate the filesystem — it creates (and then
removes) the output file and creates a directory that persists. -/
theorem claim_C5_cex :
    (save ctx0 0 chartEvil "o".toList []).1.2 =
      some (.invalidName "../evil".toList) ∧
    (save ctx0 0 chartEvil "o".toList []).2.2 =
      [Ev.mkdir ['.'], Ev.create "evil-1.0.0.tgz".toList,
        Ev.remove "evil-1.0.0.tgz".toList] ∧
    (save ctx0 0 chartEvil "o".toList []).2.1 = [(['.'], Node.dir)] := by
  decide

/-! Ideal-stream lemmas: behaviour of the entry-writing blocks when the
underlying tar stream never fails. -/

theorem writeToTar_ideal (ctx : Ctx) (hW : ∀ hd, ctx.hdrW hd = .ok ())
    (hB : ∀ b, ctx.bodyW b = .ok ()) (now : Nat) (name : List Char) (body : Bytes) :
    writeToTar ctx now name body = .ok (mkEntry now name body) := by
  unfold writeToTar
  rw [hW (mkHeader now name body), hB body]

theorem tarValues_ideal (ctx : Ctx) (hW : ∀ hd, ctx.hdrW hd = .ok ())
    (hB : ∀ b, ctx.bodyW b = .ok ()) (now : Nat) (base : List Char) :
    ∀ l : List File, tarValues ctx now base l =
      .ok ((l.filter (fun f => f.name = ValuesfileName)).map
        (fun f => mkEntry now (joinP base ValuesfileName) f.data)) := by
  intro l
  induction l with
  | nil => simp [tarValues]
  | cons f rest ih =>
    by_cases hf : f.name = ValuesfileName
    · simp only [tarValues, if_pos hf,
        writeToTar_ideal ctx hW hB now (joinP base ValuesfileName) f.data, ih]
      simp [List.filter_cons, hf]
    · simp only [tarValues, if_neg hf, ih]
      simp [List.filter_cons, hf]

theorem tarFiles_ideal (ctx : Ctx) (hW : ∀ hd, ctx.hdrW hd = .ok ())
    (hB : ∀ b, ctx.bodyW b = .ok ()) (now : Nat) (base : List Char) :
    ∀ l : List File, tarFiles ctx now base l =
      .ok (l.map (fun f => mkEntry now (joinP base f.name) f.data)) := by
  intro l
  induction l with
  | nil => simp [tarFiles]
  | cons f rest ih =>
    simp [tarFiles, writeToTar_ideal ctx hW hB now (joinP base f.name) f.data, ih]

theorem tarLock_ideal (ctx : Ctx) (hW : ∀ hd, ctx.hdrW hd = .ok ())
    (hB : ∀ b, ctx.bodyW b = .ok ()) (now : Nat) (base : List Char)
    (l : Option Lock) (hl : ∀ lk, l = some lk → ctx.marshalLock lk ≠ none) :
    tarLock ctx now base l = .ok (specLockPart ctx now base l) := by
  cases l with
  | none => simp [tarLock, specLockPart]
  | some lk =>
    cases hml : ctx.marshalLock lk with
    | none => exact absurd hml (hl lk rfl)
    | some ld =>
      simp [tarLock, hml, writeToTar_ideal ctx hW hB now (joinP base LockfileName) ld,
        specLockPart]

theorem tarLock_err_ideal (ctx : Ctx) (hW : ∀ hd, ctx.hdrW hd = .ok ())
    (hB : ∀ b, ctx.bodyW b = .ok ()) (now : Nat) (base : List Char)
    (l : Option Lock) (e : Err) (h : tarLock ctx now base l = .error e) :
    e = .marshalErr := by
  cases l with
  | none => simp [tarLock] at h
  | some lk =>
    cases hml : ctx.marshalLock lk with
    | none =>
      simp [tarLock, hml] at h
      exact h.symm
    | some ld =>
      simp [tarLock, hml,
        writeToTar_ideal ctx hW hB now (joinP base LockfileName) ld] at h

/-- The archive builder fails with MalformedSchema on a chart whose
schema bytes are present but not well-formed, once the earlier steps
(name validation, metadata and lock marshalling, entry writes) go
through. -/
theorem wtc_malformed (ctx : Ctx) (hW : ∀ hd, ctx.hdrW hd = .ok ())
    (hB : ∀ b, ctx.bodyW b = .ok ()) (now : Nat) (c : Chart) (pre : List Char)
    (hn : validateName c.Name = .ok ())
    (hm : ctx.marshalMeta c.metadata ≠ none)
    (hl : ∀ lk, c.lock = some lk → ctx.marshalLock lk ≠ none)
    (s : Bytes) (hs : c.schema = some s) (hv : ctx.jsonValid s = false) :
    writeTarContents ctx now c pre = .error .malformedSchema := by
  cases c with
  | mk md lk sc raw tmpl fls deps =>
    simp only [Chart.Name, Chart.metadata, Chart.lock, Chart.schema] at hn hm hl hs
    subst hs
    simp only [writeTarContents]
    rw [hn]
    dsimp only
    cases hmd : ctx.marshalMeta md with
    | none => exact absurd hmd hm
    | some cdata =>
      dsimp only
      rw [writeToTar_ideal ctx hW hB now (joinP (joinP pre md.name) ChartfileName) cdata]
      rw [tarLock_ideal ctx hW hB now (joinP pre md.name) lk hl]
      rw [tarValues_ideal ctx hW hB now (joinP pre md.name) raw]
      dsimp only
      simp [tarSchema, hv]

mutual

/-- Recursive well-formedness of every schema in a chart tree. -/
def schemasOK (ctx : Ctx) : Chart → Bool
  | .mk _ _ sc _ _ _ deps =>
    (match sc with
      | none => true
      | some s => ctx.jsonValid s) && schemasOKList ctx deps

/-- Recursive well-formedness of every schema in a list of charts. -/
def schemasOKList (ctx : Ctx) : List Chart → Bool
  | [] => true
  | d :: ds => schemasOK ctx d && schemasOKList ctx ds

end

/-- The error of `validateName` is always the InvalidName error. -/
theorem validateName_err_shape (n : List Char) (e : Err)
    (h : validateName n = .error e) : e = .invalidName n := by
  unfold validateName at h
  split at h
  · exact (Except.error.inj h).symm
  · simp at h

/-- Joint induction: on a tree whose schemas are all present-and-valid or
absent, the archive builder never fails with MalformedSchema (with an
ideal tar stream). -/
theorem wtc_no_malformed_aux (ctx : Ctx) (hW : ∀ hd, ctx.hdrW hd = .ok ())
    (hB : ∀ b, ctx.bodyW b = .ok ()) (now : Nat) :
    ∀ n : Nat,
      (∀ c : Chart, sizeOf c ≤ n → schemasOK ctx c = true → ∀ pre e,
        writeTarContents ctx now c pre = .error e → e ≠ .malformedSchema) ∧
      (∀ cs : List Chart, sizeOf cs ≤ n → schemasOKList ctx cs = true → ∀ pre e,
        writeTarList ctx now cs pre = .error e → e ≠ .malformedSchema) := by
  intro n
  induction n with
  | zero =>
    constructor
    · intro c hc
      cases c with
      | mk md lk sc raw tmpl fls deps => simp at hc
    · intro cs hcs
      cases cs with
      | nil => simp at hcs
      | cons d ds => simp at hcs
  | succ n ih =>
    constructor
    · intro c hc hok pre e h
      cases c with
      | mk md lk sc raw tmpl fls deps =>
        have hdeps : sizeOf deps ≤ n := by
          simp at hc
          omega
        have hokD : schemasOKList ctx deps = true := by
          simp only [schemasOK, Bool.and_eq_true] at hok
          exact hok.2
        have hokS : ∀ s, sc = some s → ctx.jsonValid s = true := by
          intro s hs
          subst hs
          simp only [schemasOK, Bool.and_eq_true] at hok
          exact hok.1
        simp only [writeTarContents] at h
        split at h
        · rename_i e0 heq
          rw [validateName_err_shape md.name e0 heq] at h
          intro hcon
          rw [hcon] at h
          simp at h
        · split at h
          · intro hcon
            rw [hcon] at h
            simp at h
          · rename_i cdata hcd
            split at h
            · rename_i e1 heq
              rw [writeToTar_ideal ctx hW hB now
                (joinP (joinP pre md.name) ChartfileName) cdata] at heq
              simp at heq
            · split at h
              · rename_i eL heq
                have hml := tarLock_err_ideal ctx hW hB now (joinP pre md.name) lk eL heq
                intro hcon
                rw [Except.error.inj h, hcon] at hml
                simp at hml
              · split at h
                · rename_i eV heq
                  rw [tarValues_ideal ctx hW hB now (joinP pre md.name) raw] at heq
                  simp at heq
                · split at h
                  · rename_i eS heq
                    cases sc with
                    | none => simp [tarSchema] at heq
                    | some s =>
                      have hvs : ctx.jsonValid s = true := hokS s rfl
                      simp only [tarSchema, hvs, if_true,
                        writeToTar_ideal ctx hW hB now
                          (joinP (joinP pre md.name) SchemafileName) s] at heq
                      simp at heq
                  · split at h
                    · rename_i eT heq
                      rw [tarFiles_ideal ctx hW hB now (joinP pre md.name) tmpl] at heq
                      simp at heq
                    · split at h
                      · rename_i eF heq
                        rw [tarFiles_ideal ctx hW hB now (joinP pre md.name) fls] at heq
                        simp at heq
                      · split at h
                        · rename_i eD heq
                          have hnm := (ih.2) deps hdeps hokD
                            (joinP (joinP pre md.name) ChartsDir) eD heq
                          exact (Except.error.inj h) ▸ hnm
                        · simp at h
    · intro cs hcs hok pre e h
      cases cs with
      | nil => simp [writeTarList] at h
      | cons d ds =>
        have hd : sizeOf d ≤ n := by simp at hcs; omega
        have hds : sizeOf ds ≤ n := by simp at hcs; omega
        have hok2 : schemasOK ctx d = true ∧ schemasOKList ctx ds = true := by
          simpa [schemasOKList, Bool.and_eq_true] using hok
        simp only [writeTarList] at h
        split at h
        · rename_i e1 heq
          exact (Except.error.inj h) ▸ (ih.1) d hd hok2.1 pre e1 heq
        · split at h
          · rename_i e2 heq
            exact (Except.error.inj h) ▸ (ih.2) ds hds hok2.2 pre e2 heq
          · simp at h

/-- C6: with a never-failing tar stream, (i) a present but ill-formed
schema makes the archive build fail with MalformedSchema (once name
validation and metadata/lock marshalling succeed); (ii) when every schema
in the chart tree is absent or well-formed, no MalformedSchema error is
ever produced; and (iii) the `Save` call on such an ill-formed chart
fails with MalformedSchema and leaves no node at the archive path. -/
theorem claim_C6 (ctx : Ctx) (hW : ∀ hd, ctx.hdrW hd = .ok ())
    (hB : ∀ b, ctx.bodyW b = .ok ()) (now : Nat) (c : Chart) (pre : List Char) :
    (∀ s, c.schema = some s → ctx.jsonValid s = false →
      validateName c.Name = .ok () → ctx.marshalMeta c.metadata ≠ none →
      (∀ lk, c.lock = some lk → ctx.marshalLock lk ≠ none) →
      writeTarContents ctx now c pre = .error .malformedSchema) ∧
    (schemasOK ctx c = true → ∀ e, writeTarContents ctx now c pre = .error e →
      e ≠ .malformedSchema) ∧
    (∀ outDir fs s, c.schema = some s → ctx.jsonValid s = false →
      validateName c.Name = .ok () → ctx.marshalMeta c.metadata ≠ none →
      (∀ lk, c.lock = some lk → ctx.marshalLock lk ≠ none) →
      ctx.validate c = none →
      (∀ ct, FS.stat fs (dirname (archivePath c outDir)) ≠ some (Node.file ct)) →
      FS.stat fs (archivePath c outDir) ≠ some Node.dir →
      dirname (archivePath c outDir) ≠ archivePath c outDir →
      (save ctx now c outDir fs).1.2 = some .malformedSchema ∧
      FS.stat (save ctx now c outDir fs).2.1 (archivePath c outDir) = none) := by
  refine ⟨?_, ?_, ?_⟩
  · intro s hs hv hn hm hl
    exact wtc_malformed ctx hW hB now c pre hn hm hl s hs hv
  · intro hok e h
    exact ((wtc_no_malformed_aux ctx hW hB now (sizeOf c)).1) c (Nat.le_refl _)
      hok pre e h
  · intro outDir fs s hs hv hn hm hl hval hdf hnd hdd
    have hwtc := wtc_malformed ctx hW hB now c [] hn hm hl s hs hv
    have h := save_err_of_wtc ctx now c outDir fs .malformedSchema hval hdf hnd
      hdd hwtc
    exact ⟨h.1, h.2.2⟩

/-- Witness for C6: the concrete chart with ill-formed schema bytes fails
the archive build with MalformedSchema. -/
theorem claim_C6_witness :
    writeTarContents ctxBad 0 chartW [] = .error .malformedSchema :=
  (claim_C6 ctxBad (fun _ => rfl) (fun _ => rfl) 0 chartW []).1 [1] rfl rfl
    (by decide) (by decide) (fun lk h => Option.noConfusion h)

/-- Shape of a successful `Save`: the returned path is the archive path,
the archive file holds exactly the builder's entries, and every other
path is untouched except that a missing directory may have been
created. -/
theorem save_ok_shape (ctx : Ctx) (now : Nat) (c : Chart) (od : List Char)
    (fs : FS) (p : List Char) (fs' : FS) (evs : List Ev)
    (h : save ctx now c od fs = ((p, none), fs', evs)) :
    p = archivePath c od ∧
    ∃ es, writeTarContents ctx now c [] = .ok es ∧
      FS.stat fs' (archivePath c od) = some (Node.file (.tgz es)) ∧
      ∀ q, q ≠ archivePath c od →
        FS.stat fs' q = FS.stat fs q ∨
        (FS.stat fs q = none ∧ FS.stat fs' q = some Node.dir) := by
  unfold save saveCreate at h
  split at h
  · simp [Prod.mk.injEq] at h
  · split at h
    · rename_i hdir
      split at h
      · simp [Prod.mk.injEq] at h
      · split at h
        · simp [Prod.mk.injEq] at h
        · rename_i es hwtc
          simp only [Prod.mk.injEq] at h
          obtain ⟨⟨hp, _⟩, hfs, _⟩ := h
          subst hp hfs
          refine ⟨rfl, es, hwtc, by simp [FS.stat], ?_⟩
          intro q hq
          by_cases hqd : dirname (archivePath c od) = q
          · right
            subst hqd
            constructor
            · exact hdir
            · simp [FS.stat, Ne.symm hq]
          · left
            simp [FS.stat, Ne.symm hq, hqd]
    · split at h
      · simp [Prod.mk.injEq] at h
      · split at h
        · simp [Prod.mk.injEq] at h
        · rename_i es hwtc
          simp only [Prod.mk.injEq] at h
          obtain ⟨⟨hp, _⟩, hfs, _⟩ := h
          subst hp hfs
          refine ⟨rfl, es, hwtc, by simp [FS.stat], ?_⟩
          intro q hq
          left
          simp [FS.stat, Ne.symm hq]
    · simp [Prod.mk.injEq] at h

/-- A successful dependency loop preserves every regular file whose path
is not one of the dependency archive paths. -/
theorem saveDeps_preserves (ctx : Ctx) (now : Nat) (base : List Char) :
    ∀ (ds : List Chart) (fs0 : FS) (r : Option Err) (fsf : FS) (evf : List Ev),
      saveDeps ctx now base fs0 ds = (r, fsf, evf) → r = none →
      ∀ q ct, FS.stat fs0 q = some (Node.file ct) →
        q ∉ ds.map (fun d => joinP base (archiveFileName d)) →
        FS.stat fsf q = some (Node.file ct) := by
  intro ds
  induction ds with
  | nil =>
    intro fs0 r fsf evf h hr q ct hq hmem
    simp only [saveDeps] at h
    simp only [Prod.mk.injEq] at h
    rw [← h.2.1]
    exact hq
  | cons d0 ds ih =>
    intro fs0 r fsf evf h hr q ct hq hmem
    simp only [saveDeps] at h
    rcases hs : save ctx now d0 base fs0 with ⟨⟨p1, err1⟩, fs1, ev1⟩
    rw [hs] at h
    cases err1 with
    | some e =>
      dsimp only at h
      simp only [Prod.mk.injEq] at h
      rw [← h.1] at hr
      simp at hr
    | none =>
      dsimp only at h
      rcases hsd : saveDeps ctx now base fs1 ds with ⟨r2, fs2, ev2⟩
      rw [hsd] at h
      dsimp only at h
      simp only [Prod.mk.injEq] at h
      obtain ⟨hre, hfs, _⟩ := h
      have hq0 : q ≠ joinP base (archiveFileName d0) := by
        intro hcon
        exact hmem (by simp [hcon])
      have hshape := save_ok_shape ctx now d0 base fs0 p1 fs1 ev1 hs
      have hq1 : FS.stat fs1 q = some (Node.file ct) := by
        rcases hshape.2 with ⟨es, _, _, hpres⟩
        rcases hpres q (by
            intro hcon
            exact hq0 (by rw [hcon]; rfl)) with hsame | ⟨hnone, _⟩
        · rw [hsame]; exact hq
        · rw [hnone] at hq; exact absurd hq (by simp)
      have hfin := ih fs1 r2 fs2 ev2 hsd (by rw [hre]; exact hr) q ct hq1 (by
        intro hcon
        exact hmem (by simp [hcon]))
      rw [← hfs]
      exact hfin

/-- A successful dependency loop leaves, for every dependency, the
archive file produced by the archive builder at
`<base>/<dep>-<dep-version>.tgz` (a regular file, never a directory),
provided the dependency archive paths are pairwise distinct. -/
theorem saveDeps_ok (ctx : Ctx) (now : Nat) (base : List Char) :
    ∀ (ds : List Chart) (fs0 : FS) (r : Option Err) (fsf : FS) (evf : List Ev),
      saveDeps ctx now base fs0 ds = (r, fsf, evf) → r = none →
      (ds.map (fun d => joinP base (archiveFileName d))).Nodup →
      ∀ d ∈ ds, ∃ es, writeTarContents ctx now d [] = .ok es ∧
        FS.stat fsf (joinP base (archiveFileName d)) =
          some (Node.file (.tgz es)) := by
  intro ds
  induction ds with
  | nil =>
    intro fs0 r fsf evf h hr hnd d hd
    simp at hd
  | cons d0 ds ih =>
    intro fs0 r fsf evf h hr hnd d hd
    simp only [saveDeps] at h
    rcases hs : save ctx now d0 base fs0 with ⟨⟨p1, err1⟩, fs1, ev1⟩
    rw [hs] at h
    cases err1 with
    | some e =>
      dsimp only at h
      simp only [Prod.mk.injEq] at h
      rw [← h.1] at hr
      simp at hr
    | none =>
      dsimp only at h
      rcases hsd : saveDeps ctx now base fs1 ds with ⟨r2, fs2, ev2⟩
      rw [hsd] at h
      dsimp only at h
      simp only [Prod.mk.injEq] at h
      obtain ⟨hre, hfs, _⟩ := h
      have hshape := save_ok_shape ctx now d0 base fs0 p1 fs1 ev1 hs
      rcases hshape.2 with ⟨es0, hwtc0, hstat0, hpres0⟩
      simp only [List.map_cons, List.nodup_cons] at hnd
      rcases List.mem_cons.mp hd with hdd | hdd
      · subst hdd
        refine ⟨es0, hwtc0, ?_⟩
        have hfin := saveDeps_preserves ctx now base ds fs1 r2 fs2 ev2 hsd
          (by rw [hre]; exact hr) (joinP base (archiveFileName d))
          (.tgz es0) hstat0 hnd.1
        rw [← hfs]
        exact hfin
      · have hfin := ih fs1 r2 fs2 ev2 hsd (by rw [hre]; exact hr) hnd.2 d hdd
        rw [← hfs]
        exact hfin

/-- A successful `SaveDir` runs the dependency loop last: its final
filesystem is the one the loop produces from some intermediate state. -/
theorem saveDir_ok_deps (ctx : Ctx) (now : Nat) (c : Chart) (dest : List Char)
    (fs : FS) (r : Option Err) (fs6 : FS) (evs : List Ev)
    (h : saveDir ctx now c dest fs = (r, fs6, evs)) (hr : r = none) :
    ∃ fs5 ev6, saveDeps ctx now (joinP (joinP dest c.Name) ChartsDir) fs5 c.deps
      = (none, fs6, ev6) := by
  subst hr
  unfold saveDir at h
  split at h
  · simp [Prod.mk.injEq] at h
  · split at h
    · simp [Prod.mk.injEq] at h
    · split at h
      · simp [Prod.mk.injEq] at h
      · split at h
        · simp [Prod.mk.injEq] at h
        · split at h
          · simp [Prod.mk.injEq] at h
          · split at h
            · simp [Prod.mk.injEq] at h
            · split at h
              · simp [Prod.mk.injEq] at h
              · split at h
                · simp [Prod.mk.injEq] at h
                · rename_i fs5x hw5
                  rcases hsd : saveDeps ctx now (joinP (joinP dest c.Name) ChartsDir)
                      _ c.deps with ⟨r2, fs2, ev2⟩
                  rw [hsd] at h
                  dsimp only at h
                  simp only [Prod.mk.injEq] at h
                  obtain ⟨hre, hfs, _⟩ := h
                  exact ⟨_, ev2, by rw [hsd, hre, hfs]⟩

/-- Every error of the dependency loop is a wrap of some dependency's own
`Save` failure with that dependency's fully-qualified name. -/
theorem saveDeps_err (ctx : Ctx) (now : Nat) (base : List Char) :
    ∀ (ds : List Chart) (fs0 : FS) (e : Err),
      (saveDeps ctx now base fs0 ds).1 = some e →
      ∃ d ∈ ds, ∃ e0 fs1, (save ctx now d base fs1).1.2 = some e0 ∧
        e = .depSave (ctx.fullPath d) e0 := by
  intro ds
  induction ds with
  | nil =>
    intro fs0 e h
    simp [saveDeps] at h
  | cons d0 ds ih =>
    intro fs0 e h
    simp only [saveDeps] at h
    rcases hs : save ctx now d0 base fs0 with ⟨⟨p1, err1⟩, fs1, ev1⟩
    rw [hs] at h
    cases err1 with
    | some e1 =>
      dsimp only at h
      refine ⟨d0, List.mem_cons_self d0 ds, e1, fs0, ?_, (Option.some.inj h).symm⟩
      rw [hs]
    | none =>
      dsimp only at h
      rcases hsd : saveDeps ctx now base fs1 ds with ⟨r2, fs2, ev2⟩
      rw [hsd] at h
      dsimp only at h
      obtain ⟨d, hd, e0, fsx, hsx, he⟩ := ih fs1 e (by rw [hsd]; exact h)
      exact ⟨d, List.mem_cons_of_mem d0 hd, e0, fsx, hsx, he⟩

/-- C7: when `SaveDir` succeeds and the dependency archive paths are
pairwise distinct, every dependency ends up persisted as one regular
archive file `<chart-dir>/charts/<dep>-<dep-version>.tgz` (never a
directory) holding exactly the entry stream the archive builder produces
for that dependency — the dependencies go through the archive-form `Save`;
and every failure of the dependency loop is some dependency's own `Save`
error wrapped as DependencyFailure with that dependency's fully-qualified
name, the original cause preserved inside. -/
theorem claim_C7 (ctx : Ctx) (now : Nat) (c : Chart) (dest : List Char) (fs : FS) :
    ((saveDir ctx now c dest fs).1 = none →
      (c.deps.map (fun d => joinP (joinP (joinP dest c.Name) ChartsDir)
        (archiveFileName d))).Nodup →
      ∀ d ∈ c.deps, ∃ es, writeTarContents ctx now d [] = .ok es ∧
        FS.stat (saveDir ctx now c dest fs).2.1
          (joinP (joinP (joinP dest c.Name) ChartsDir) (archiveFileName d)) =
          some (Node.file (.tgz es))) ∧
    (∀ base fs0 e, (saveDeps ctx now base fs0 c.deps).1 = some e →
      ∃ d ∈ c.deps, ∃ e0 fs1, (save ctx now d base fs1).1.2 = some e0 ∧
        e = .depSave (ctx.fullPath d) e0) := by
  constructor
  · intro h hnd d hd
    rcases hfull : saveDir ctx now c dest fs with ⟨r, fs6, evs⟩
    have hr : r = none := by
      rw [hfull] at h
      exact h
    obtain ⟨fs5, ev6, hsd⟩ := saveDir_ok_deps ctx now c dest fs r fs6 evs hfull hr
    have hfin := saveDeps_ok ctx now (joinP (joinP dest c.Name) ChartsDir) c.deps
      fs5 none fs6 ev6 hsd rfl hnd d hd
    exact hfin
  · intro base fs0 e h
    exact saveDeps_err ctx now base c.deps fs0 e h

/-- A concrete chart with one dependency. -/
def chartDepW : Chart :=
  .mk ⟨['p'], ['2'], [8]⟩ none none [] [] [] [chartW]

/-- Witness for C7: the concrete `SaveDir` run persists its dependency as
an archive file under `charts/` holding the builder's entries. -/
theorem claim_C7_witness :
    ∃ es, writeTarContents ctx0 0 chartW [] = .ok es ∧
      FS.stat (saveDir ctx0 0 chartDepW "d".toList []).2.1
        (joinP (joinP (joinP "d".toList (Chart.Name chartDepW)) ChartsDir)
          (archiveFileName chartW)) = some (Node.file (.tgz es)) :=
  (claim_C7 ctx0 0 chartDepW "d".toList []).1 (by decide) (by decide) chartW
    (by simp [chartDepW, Chart.deps])

/-- C8: for every logical path and payload, a successful entry write
stores the slash-normalized path, the fixed non-executable mode `0644`,
a size equal to the payload length, and the payload itself; the entry is
produced exactly when both the header write and the payload write
succeed, and a failure of either half fails the whole entry with that
failure. -/
theorem claim_C8 (ctx : Ctx) (now : Nat) (name : List Char) (body : Bytes) :
    (∀ e, writeToTar ctx now name body = .ok e →
      e.header.name = toSlash name ∧ e.header.mode = 0o644 ∧
      e.header.size = body.length ∧ e.body = body) ∧
    (ctx.hdrW (mkHeader now name body) = .ok () → ctx.bodyW body = .ok () →
      writeToTar ctx now name body = .ok (mkEntry now name body)) ∧
    (∀ e, ctx.hdrW (mkHeader now name body) = .error e →
      writeToTar ctx now name body = .error e) ∧
    (∀ e, ctx.hdrW (mkHeader now name body) = .ok () →
      ctx.bodyW body = .error e → writeToTar ctx now name body = .error e) := by
  refine ⟨?_, ?_, ?_, ?_⟩
  · intro e h
    rw [writeToTar_ok ctx now name body e h]
    simp [mkEntry, mkHeader]
  · intro h1 h2
    unfold writeToTar
    rw [h1, h2]
  · intro e h1
    unfold writeToTar
    rw [h1]
  · intro e h1 h2
    unfold writeToTar
    rw [h1, h2]

/-- Witness for C8: a concrete entry write over the never-failing
stream. -/
theorem claim_C8_witness :
    writeToTar ctx0 0 "a/b".toList [1, 2] = .ok (mkEntry 0 "a/b".toList [1, 2]) :=
  (claim_C8 ctx0 0 "a/b".toList [1, 2]).2.1 rfl rfl

/-- Restamp an entry's modification time. -/
def setTime (t : Nat) (e : Entry) : Entry :=
  { e with header := { e.header with modTime := t } }

theorem setTime_mkEntry (t now : Nat) (p : List Char) (b : Bytes) :
    setTime t (mkEntry now p b) = mkEntry t p b := rfl

/-! Time-shift lemmas: with a never-failing tar stream, the entry stream
written at clock `t` is the clock-0 stream with every entry restamped. -/

theorem tarLock_time (ctx : Ctx) (hW : ∀ hd, ctx.hdrW hd = .ok ())
    (hB : ∀ b, ctx.bodyW b = .ok ()) (t : Nat) (base : List Char)
    (l : Option Lock) :
    tarLock ctx t base l =
      Except.map (List.map (setTime t)) (tarLock ctx 0 base l) := by
  cases l with
  | none => simp [tarLock, Except.map]
  | some lk =>
    cases hml : ctx.marshalLock lk with
    | none => simp [tarLock, hml, Except.map]
    | some ld =>
      simp [tarLock, hml, writeToTar_ideal ctx hW hB t (joinP base LockfileName) ld,
        writeToTar_ideal ctx hW hB 0 (joinP base LockfileName) ld, Except.map,
        setTime_mkEntry]

theorem tarValues_time (ctx : Ctx) (hW : ∀ hd, ctx.hdrW hd = .ok ())
    (hB : ∀ b, ctx.bodyW b = .ok ()) (t : Nat) (base : List Char)
    (l : List File) :
    tarValues ctx t base l =
      Except.map (List.map (setTime t)) (tarValues ctx 0 base l) := by
  rw [tarValues_ideal ctx hW hB t base l, tarValues_ideal ctx hW hB 0 base l]
  simp [Except.map, List.map_map]
  intro a ha hn
  rfl

theorem tarFiles_time (ctx : Ctx) (hW : ∀ hd, ctx.hdrW hd = .ok ())
    (hB : ∀ b, ctx.bodyW b = .ok ()) (t : Nat) (base : List Char)
    (l : List File) :
    tarFiles ctx t base l =
      Except.map (List.map (setTime t)) (tarFiles ctx 0 base l) := by
  rw [tarFiles_ideal ctx hW hB t base l, tarFiles_ideal ctx hW hB 0 base l]
  simp [Except.map, List.map_map]
  intro a ha
  rfl

theorem tarSchema_time (ctx : Ctx) (hW : ∀ hd, ctx.hdrW hd = .ok ())
    (hB : ∀ b, ctx.bodyW b = .ok ()) (t : Nat) (base : List Char)
    (sc : Option Bytes) :
    tarSchema ctx t base sc =
      Except.map (List.map (setTime t)) (tarSchema ctx 0 base sc) := by
  cases sc with
  | none => simp [tarSchema, Except.map]
  | some s =>
    by_cases hv : ctx.jsonValid s = true
    · simp [tarSchema, hv, writeToTar_ideal ctx hW hB t (joinP base SchemafileName) s,
        writeToTar_ideal ctx hW hB 0 (joinP base SchemafileName) s, Except.map,
        setTime_mkEntry]
    · simp [tarSchema, hv, Except.map]

/-- Joint induction for the time shift of the whole archive builder. -/
theorem wtc_time_aux (ctx : Ctx) (hW : ∀ hd, ctx.hdrW hd = .ok ())
    (hB : ∀ b, ctx.bodyW b = .ok ()) (t : Nat) :
    ∀ n : Nat,
      (∀ c : Chart, sizeOf c ≤ n → ∀ pre,
        writeTarContents ctx t c pre =
          Except.map (List.map (setTime t)) (writeTarContents ctx 0 c pre)) ∧
      (∀ cs : List Chart, sizeOf cs ≤ n → ∀ pre,
        writeTarList ctx t cs pre =
          Except.map (List.map (setTime t)) (writeTarList ctx 0 cs pre)) := by
  intro n
  induction n with
  | zero =>
    constructor
    · intro c hc
      cases c with
      | mk md lk sc raw tmpl fls deps => simp at hc
    · intro cs hcs
      cases cs with
      | nil => simp at hcs
      | cons d ds => simp at hcs
  | succ n ih =>
    constructor
    · intro c hc pre
      cases c with
      | mk md lk sc raw tmpl fls deps =>
        have hdeps : sizeOf deps ≤ n := by
          simp at hc
          omega
        simp only [writeTarContents]
        cases hv : validateName md.name with
        | error e => simp [Except.map]
        | ok u =>
          cases hmd : ctx.marshalMeta md with
          | none => simp [Except.map]
          | some cdata =>
            dsimp only
            rw [writeToTar_ideal ctx hW hB t
                (joinP (joinP pre md.name) ChartfileName) cdata,
              writeToTar_ideal ctx hW hB 0
                (joinP (joinP pre md.name) ChartfileName) cdata]
            dsimp only
            rw [tarLock_time ctx hW hB t (joinP pre md.name) lk]
            cases hL : tarLock ctx 0 (joinP pre md.name) lk with
            | error e => simp [Except.map]
            | ok eL =>
              simp only [Except.map]
              try dsimp only
              rw [tarValues_time ctx hW hB t (joinP pre md.name) raw]
              cases hV : tarValues ctx 0 (joinP pre md.name) raw with
              | error e => simp [Except.map]
              | ok eV =>
                simp only [Except.map]
                try dsimp only
                rw [tarSchema_time ctx hW hB t (joinP pre md.name) sc]
                cases hS : tarSchema ctx 0 (joinP pre md.name) sc with
                | error e => simp [Except.map]
                | ok eS =>
                  simp only [Except.map]
                  try dsimp only
                  rw [tarFiles_time ctx hW hB t (joinP pre md.name) tmpl]
                  cases hT : tarFiles ctx 0 (joinP pre md.name) tmpl with
                  | error e => simp [Except.map]
                  | ok eT =>
                    simp only [Except.map]
                    try dsimp only
                    rw [tarFiles_time ctx hW hB t (joinP pre md.name) fls]
                    cases hF : tarFiles ctx 0 (joinP pre md.name) fls with
                    | error e => simp [Except.map]
                    | ok eF =>
                      simp only [Except.map]
                      try dsimp only
                      rw [(ih.2) deps hdeps (joinP (joinP pre md.name) ChartsDir)]
                      cases hD : writeTarList ctx 0 deps
                          (joinP (joinP pre md.name) ChartsDir) with
                      | error e => simp [Except.map]
                      | ok eD =>
                        simp [Except.map, setTime_mkEntry]
    · intro cs hcs pre
      cases cs with
      | nil => simp [writeTarList, Except.map]
      | cons d ds =>
        have hd : sizeOf d ≤ n := by simp at hcs; omega
        have hds : sizeOf ds ≤ n := by simp at hcs; omega
        simp only [writeTarList]
        rw [(ih.1) d hd pre]
        cases h1 : writeTarContents ctx 0 d pre with
        | error e => simp [Except.map]
        | ok e1 =>
          simp only [Except.map]
          try dsimp only
          rw [(ih.2) ds hds pre]
          cases h2 : writeTarList ctx 0 ds pre with
          | error e => simp [Except.map]
          | ok es => simp [Except.map]

/-- C9: two `Save` calls on the same chart at different clock values that
both succeed return the same archive path and produce archives whose
entry streams agree entirely except possibly in the per-entry
modification timestamps — in particular the entry ordering and entry
paths are identical. -/
theorem claim_C9 (ctx : Ctx) (hW : ∀ hd, ctx.hdrW hd = .ok ())
    (hB : ∀ b, ctx.bodyW b = .ok ()) (t1 t2 : Nat) (c : Chart)
    (outDir : List Char) (fs1 fs2 : FS) (p1 p2 : List Char) (fsa fsb : FS)
    (ev1 ev2 : List Ev)
    (h1 : save ctx t1 c outDir fs1 = ((p1, none), fsa, ev1))
    (h2 : save ctx t2 c outDir fs2 = ((p2, none), fsb, ev2)) :
    p1 = p2 ∧
    ∃ es1 es2, writeTarContents ctx t1 c [] = .ok es1 ∧
      writeTarContents ctx t2 c [] = .ok es2 ∧
      FS.stat fsa p1 = some (Node.file (.tgz es1)) ∧
      FS.stat fsb p2 = some (Node.file (.tgz es2)) ∧
      es1.map (fun e => e.header.name) = es2.map (fun e => e.header.name) ∧
      es1.map (setTime 0) = es2.map (setTime 0) := by
  obtain ⟨hp1, es1, hwtc1, hstat1, _⟩ := save_ok_shape ctx t1 c outDir fs1 p1 fsa ev1 h1
  obtain ⟨hp2, es2, hwtc2, hstat2, _⟩ := save_ok_shape ctx t2 c outDir fs2 p2 fsb ev2 h2
  have hpeq : p1 = p2 := by rw [hp1, hp2]
  have htime1 := ((wtc_time_aux ctx hW hB t1 (sizeOf c)).1) c (Nat.le_refl _) []
  have htime2 := ((wtc_time_aux ctx hW hB t2 (sizeOf c)).1) c (Nat.le_refl _) []
  rw [hwtc1] at htime1
  rw [hwtc2] at htime2
  cases h0 : writeTarContents ctx 0 c [] with
  | error e =>
    rw [h0] at htime1
    simp [Except.map] at htime1
  | ok es0 =>
    rw [h0] at htime1 htime2
    simp only [Except.map] at htime1 htime2
    have hes1 : es1 = es0.map (setTime t1) := by
      have := htime1.symm
      simpa using (Except.ok.inj htime1)
    have hes2 : es2 = es0.map (setTime t2) := by
      simpa using (Except.ok.inj htime2)
    subst hes1 hes2 hp1 hp2
    refine ⟨hpeq, es0.map (setTime t1), es0.map (setTime t2), hwtc1, hwtc2,
      hstat1, ?_, ?_, ?_⟩
    · rw [← hpeq] at hstat2
      exact hstat2
    · simp [List.map_map]
      intro a ha
      rfl
    · simp [List.map_map]
      intro a ha
      rfl

/-- Witness for C9: two concrete saves at clocks 1 and 2 return the same
path. -/
theorem claim_C9_witness :
    (save ctx0 1 chartW "o".toList []).1.1 =
      (save ctx0 2 chartW "o".toList []).1.1 := by
  have h := claim_C9 ctx0 (fun _ => rfl) (fun _ => rfl) 1 2 chartW "o".toList [] []
    (save ctx0 1 chartW "o".toList []).1.1 (save ctx0 2 chartW "o".toList []).1.1
    (save ctx0 1 chartW "o".toList []).2.1 (save ctx0 2 chartW "o".toList []).2.1
    (save ctx0 1 chartW "o".toList []).2.2 (save ctx0 2 chartW "o".toList []).2.2
    (by decide) (by decide)
  exact h.1

/-- A successful `writeFile` leaves the raw payload at the target path. -/
theorem writeFileF_target (fs : FS) (p : List Char) (b : Bytes) (fs' : FS)
    (ev : List Ev) (h : writeFileF fs p b = (none, fs', ev)) :
    FS.stat fs' p = some (Node.file (.raw b)) := by
  unfold writeFileF at h
  split at h
  · simp [Prod.mk.injEq] at h
  · split at h
    · simp [Prod.mk.injEq] at h
    · simp only [Prod.mk.injEq] at h
      rw [← h.2.1]
      simp [FS.stat]
  · split at h
    · simp [Prod.mk.injEq] at h
    · simp only [Prod.mk.injEq] at h
      rw [← h.2.1]
      simp [FS.stat]

/-- A successful `writeFile` to a different path preserves every regular
file. -/
theorem writeFileF_preserves (fs : FS) (p : List Char) (b : Bytes) (fs' : FS)
    (ev : List Ev) (h : writeFileF fs p b = (none, fs', ev)) (q : List Char)
    (ct : FileContent) (hq : q ≠ p) (hs : FS.stat fs q = some (Node.file ct)) :
    FS.stat fs' q = some (Node.file ct) := by
  unfold writeFileF at h
  split at h
  · simp [Prod.mk.injEq] at h
  · split at h
    · simp [Prod.mk.injEq] at h
    · simp only [Prod.mk.injEq] at h
      rw [← h.2.1]
      simpa [FS.stat, Ne.symm hq] using hs
  · rename_i hdn
    split at h
    · simp [Prod.mk.injEq] at h
    · simp only [Prod.mk.injEq] at h
      rw [← h.2.1]
      have hqd : dirname p ≠ q := by
        intro hcon
        rw [hcon] at hdn
        rw [hdn] at hs
        exact Option.noConfusion hs
      simpa [FS.stat, Ne.symm hq, hqd] using hs

/-- A successful batch write preserves every regular file whose path is
not among the written paths. -/
theorem writeAll_preserves :
    ∀ (l : List (List Char × Bytes)) (fs : FS) (r : Option Err) (fsf : FS)
      (evf : List Ev), writeAll fs l = (r, fsf, evf) → r = none →
      ∀ q ct, FS.stat fs q = some (Node.file ct) →
        q ∉ l.map (fun pb => pb.1) →
        FS.stat fsf q = some (Node.file ct) := by
  intro l
  induction l with
  | nil =>
    intro fs r fsf evf h hr q ct hs hmem
    simp only [writeAll] at h
    simp only [Prod.mk.injEq] at h
    rw [← h.2.1]
    exact hs
  | cons pb rest ih =>
    intro fs r fsf evf h hr q ct hs hmem
    rcases pb with ⟨p, b⟩
    simp only [writeAll] at h
    rcases hw : writeFileF fs p b with ⟨e1, fs1, ev1⟩
    rw [hw] at h
    cases e1 with
    | some e =>
      dsimp only at h
      simp only [Prod.mk.injEq] at h
      rw [← h.1] at hr
      simp at hr
    | none =>
      dsimp only at h
      rcases hwa : writeAll fs1 rest with ⟨r2, fs2, ev2⟩
      rw [hwa] at h
      dsimp only at h
      simp only [Prod.mk.injEq] at h
      obtain ⟨hre, hfs, _⟩ := h
      have hq1 : q ≠ p := by
        intro hcon
        exact hmem (by simp [hcon])
      have hs1 := writeFileF_preserves fs p b fs1 ev1 hw q ct hq1 hs
      have hfin := ih fs1 r2 fs2 ev2 hwa (by rw [hre]; exact hr) q ct hs1 (by
        intro hcon
        exact hmem (by simp [hcon]))
      rw [← hfs]
      exact hfin

/-- A successful `SaveDir` of a dependency-free chart with a schema, none
of whose template or static file paths collides with the schema path,
leaves the schema bytes verbatim at `<dest>/<name>/values.schema.json`. -/
theorem saveDir_schema_stat (ctx : Ctx) (now : Nat) (c : Chart)
    (dest : List Char) (fs : FS) (r : Option Err) (fsf : FS) (evf : List Ev)
    (h : saveDir ctx now c dest fs = (r, fsf, evf)) (hr : r = none)
    (s : Bytes) (hs : c.schema = some s) (hdeps : c.deps = [])
    (hdist : ∀ f ∈ c.templates ++ c.files,
      joinP (joinP dest c.Name) f.name ≠ joinP (joinP dest c.Name) SchemafileName) :
    FS.stat fsf (joinP (joinP dest c.Name) SchemafileName) =
      some (Node.file (.raw s)) := by
  subst hr
  cases c with
  | mk md lk sc raw tmpl fls deps =>
    simp only [Chart.schema] at hs
    simp only [Chart.deps] at hdeps
    simp only [Chart.templates, Chart.files] at hdist
    subst hs hdeps
    simp only [Chart.Name, Chart.metadata] at h hdist ⊢
    unfold saveDir at h
    simp only [Chart.Name, Chart.metadata, Chart.lock, Chart.schema, Chart.raw,
      Chart.templates, Chart.files, Chart.deps] at h
    split at h
    · simp [Prod.mk.injEq] at h
    · split at h
      · simp [Prod.mk.injEq] at h
      · split at h
        · simp [Prod.mk.injEq] at h
        · split at h
          · simp [Prod.mk.injEq] at h
          · split at h
            · simp [Prod.mk.injEq] at h
            · split at h
              · simp [Prod.mk.injEq] at h
              · split at h
                · simp [Prod.mk.injEq] at h
                · rename_i fs4v hsch
                  split at h
                  · simp [Prod.mk.injEq] at h
                  · rename_i fs5v hwall
                    simp only [saveDeps] at h
                    try dsimp only at h
                    simp only [Prod.mk.injEq] at h
                    obtain ⟨_, hfs, _⟩ := h
                    rename_i wa5
                    have htgt := writeFileF_target _ _ _ _ _ hsch
                    have hpres := writeAll_preserves _ _ _ _ _ hwall rfl
                      (joinP (joinP dest md.name) SchemafileName)
                      (.raw s) htgt (by
                        intro hcon
                        simp only [List.map_map, List.mem_map] at hcon
                        obtain ⟨f, hf, hfe⟩ := hcon
                        exact hdist f hf hfe)
                    rw [← hfs]
                    exact hpres

/-- C10: `SaveDir` performs no well-formedness check on the top-level
schema bytes: (i) for a dependency-free chart its entire behaviour is
independent of the JSON validity check; (ii) whenever it succeeds on a
chart with a schema (dependency-free, no template or static file path
colliding with the schema path), the schema bytes are on disk verbatim —
in particular also when they are not valid JSON; (iii) in contrast, the
archive form rejects the same chart with MalformedSchema. -/
theorem claim_C10 (ctx : Ctx) (now : Nat) (c : Chart) (dest : List Char)
    (fs : FS) :
    (∀ g : Bytes → Bool, c.deps = [] →
      saveDir ctx now c dest fs =
        saveDir { ctx with jsonValid := g } now c dest fs) ∧
    (∀ s, c.schema = some s → c.deps = [] →
      (∀ f ∈ c.templates ++ c.files,
        joinP (joinP dest c.Name) f.name ≠
          joinP (joinP dest c.Name) SchemafileName) →
      (saveDir ctx now c dest fs).1 = none →
      FS.stat (saveDir ctx now c dest fs).2.1
        (joinP (joinP dest c.Name) SchemafileName) =
        some (Node.file (.raw s))) ∧
    (∀ s, c.schema = some s → ctx.jsonValid s = false →
      (∀ hd, ctx.hdrW hd = .ok ()) → (∀ b, ctx.bodyW b = .ok ()) →
      validateName c.Name = .ok () → ctx.marshalMeta c.metadata ≠ none →
      (∀ lk, c.lock = some lk → ctx.marshalLock lk ≠ none) →
      writeTarContents ctx now c [] = .error .malformedSchema) := by
  refine ⟨?_, ?_, ?_⟩
  · intro g hdeps
    cases c with
    | mk md lk sc raw tmpl fls deps =>
      simp only [Chart.deps] at hdeps
      subst hdeps
      rfl
  · intro s hs hdeps hdist h
    rcases hfull : saveDir ctx now c dest fs with ⟨r, fsf, evf⟩
    have hr : r = none := by
      rw [hfull] at h
      exact h
    have hfin := saveDir_schema_stat ctx now c dest fs r fsf evf hfull hr s hs
      hdeps hdist
    exact hfin
  · intro s hs hv hW hB hn hm hl
    exact wtc_malformed ctx hW hB now c [] hn hm hl s hs hv

/-- Witness for C10: the concrete `SaveDir` run with ill-formed schema
bytes succeeds and leaves the bytes verbatim on disk, while the archive
builder rejects the same chart. -/
theorem claim_C10_witness :
    FS.stat (saveDir ctxBad 0 chartW "d".toList []).2.1
      (joinP (joinP "d".toList (Chart.Name chartW)) SchemafileName) =
      some (Node.file (.raw [1])) ∧
    writeTarContents ctxBad 0 chartW [] = .error .malformedSchema := by
  have h := claim_C10 ctxBad 0 chartW "d".toList []
  refine ⟨h.2.1 [1] rfl rfl (by decide) (by decide), ?_⟩
  exact h.2.2 [1] rfl rfl (fun _ => rfl) (fun _ => rfl) (by decide) (by decide)
    (fun lk hcon => Option.noConfusion hcon)

end ChartSave
